import Mathlib

/-!
Verification of the oxischeme core runtime: a shallow embedding of the
heap (typed arenas, root table, symbol table, mark-and-sweep GC), the
static environment, the activation model, the trampolined evaluator and
the list/printing utilities, with theorems settling the specification
claims against the code.

Heap pointers (`ArenaPtr<T>`) are embedded as indices (`Nat`) into the
per-type pools, which are Lean `List`s (the Rust arenas are fixed
vectors; the pool length is the capacity).  Rust `HashMap`s are embedded
as association lists with hash-map insert/lookup/remove semantics.
Fallible Rust code returning `Result<_, String>` becomes `Except String`.
-/

namespace Oxischeme

/-- Scheme values (`value.rs`, `enum Value`).  Heap-backed variants hold
the arena index of their referent.  A `Primitive` holds a function
pointer in Rust; here we keep its name and leave the function itself to
a dispatcher parameter where it is needed. -/
inductive Value where
  | emptyList : Value
  | pair (c : Nat) : Value
  | str (s : Nat) : Value
  | symbol (s : Nat) : Value
  | integer (i : Int) : Value
  | boolean (b : Bool) : Value
  | character (ch : Char) : Value
  | procedure (p : Nat) : Value
  | primitive (name : String) : Value
deriving DecidableEq, Repr

/-- A cons cell (`value.rs`, `struct Cons`). -/
structure Cons where
  car : Value
  cdr : Value
deriving DecidableEq, Repr

/-- The GC thing union (`heap.rs`, `enum GcThing`). -/
inductive GcThing where
  | cons (i : Nat) : GcThing
  | string (i : Nat) : GcThing
  | activation (i : Nat) : GcThing
  | procedure (i : Nat) : GcThing
deriving DecidableEq, Repr

/-- `Value::to_gc_thing` (`value.rs`): which GC thing, if any, a value
holds alive. -/
def Value.toGcThing : Value → Option GcThing
  | .str s => some (GcThing.string s)
  | .symbol s => some (GcThing.string s)
  | .pair c => some (GcThing.cons c)
  | .procedure p => some (GcThing.procedure p)
  | _ => none

/-- A runtime activation (`environment.rs`, `struct Activation`): an
optional parent pointer and slots, where `none` is the unbound
sentinel. -/
structure Activation where
  parent : Option Nat
  vals : List (Option Value)
deriving DecidableEq, Repr

/-- The meaning IR produced by syntactic analysis (`eval.rs`,
`enum MeaningData`).  The paired evaluator function pointer of the Rust
`Meaning` struct is determined by the variant, so the embedding keeps
only the data. -/
inductive Meaning where
  | quotation (v : Value) : Meaning
  | reference (i j : Nat) : Meaning
  | definition (i j : Nat) (m : Meaning) : Meaning
  | setVariable (i j : Nat) (m : Meaning) : Meaning
  | conditional (c t e : Meaning) : Meaning
  | sequence (a b : Meaning) : Meaning
  | lambda (arity : Nat) (body : Meaning) : Meaning
  | invocation (head : Meaning) (args : List Meaning) : Meaning
deriving Repr

/-- A user-defined procedure (`value.rs`, `struct Procedure`).  `body`
and `act` are `Option` exactly as in the source (a default-initialized
procedure has neither). -/
structure SchemeProc where
  arity : Nat
  body : Option Meaning
  act : Option Nat

/-! ## Association lists with Rust `HashMap` semantics -/

/-- `HashMap::get`: the value stored at the first (unique) occurrence of
the key. -/
def hmGet {α β : Type} [DecidableEq α] : List (α × β) → α → Option β
  | [], _ => none
  | p :: rest, k => if p.1 = k then some p.2 else hmGet rest k

/-- `HashMap::insert`: overwrite the existing entry for the key, or
append a fresh one. -/
def hmInsert {α β : Type} [DecidableEq α] : List (α × β) → α → β → List (α × β)
  | [], k, v => [(k, v)]
  | p :: rest, k, v =>
    if p.1 = k then (k, v) :: rest else p :: hmInsert rest k v

/-- `HashMap::remove`: drop the (unique) entry for the key. -/
def hmRemove {α β : Type} [DecidableEq α] : List (α × β) → α → List (α × β)
  | [], _ => []
  | p :: rest, k => if p.1 = k then rest else p :: hmRemove rest k

/-! ## The static environment (`environment.rs`, `struct Environment`)

`bindings` is a vector of frames, oldest (global) first; each frame maps
a name to its slot.  `define` only ever inserts names that are absent
from the frame, so the association list never holds a duplicate key and
its length is the `HashMap`'s size. -/

/-- One lexical frame: name to slot index. -/
abbrev Frame : Type := List (String × Nat)

/-- The static environment: frames, frame 0 the globals, youngest last. -/
structure Env where
  bindings : List Frame

/-- `Environment::define`: insert into the youngest frame and return the
runtime coordinates.  If the name is already present there, return its
existing slot. -/
def Env.define (env : Env) (name : String) : Env × Nat × Nat :=
  match env.bindings.getLast? with
  | none => (env, 0, 0)
  | some youngest =>
    match hmGet youngest name with
    | some n => (env, 0, n)
    | none =>
      let n := youngest.length
      let youngest := hmInsert youngest name n
      ({ bindings := env.bindings.dropLast ++ [youngest] }, 0, n)

/-- `Environment::lookup`: scan frames from youngest to oldest; `i` is
the number of hops outwards, `j` the slot in the found frame. -/
def Env.lookup (env : Env) (name : String) : Option (Nat × Nat) :=
  go env.bindings.reverse 0
where
  go : List Frame → Nat → Option (Nat × Nat)
    | [], _ => none
    | f :: rest, i =>
      match hmGet f name with
      | some j => some (i, j)
      | none => go rest (i + 1)

/-! ## The heap (`heap.rs`, `struct Heap`) -/

/-- The scheme heap: one pool per GC'd type, the root table, the symbol
table and the global activation pointer.  A pool index is live program
data; the arena free lists are recomputed by the sweep. -/
structure SchemeHeap where
  consPool : List Cons
  stringPool : List String
  actPool : List Activation
  procPool : List SchemeProc
  roots : List (GcThing × Nat)
  symbolTable : List (String × Nat)
  globalActivation : Nat

/-- `Heap::add_root`: bump the root's reference count, starting from 0
when it is absent. -/
def addRoot (roots : List (GcThing × Nat)) (root : GcThing) : List (GcThing × Nat) :=
  let currentCount := (hmGet roots root).getD 0
  hmInsert roots root (currentCount + 1)

/-- `Heap::drop_root`: decrement the count; a count of 1 removes the
key.  The source `expect`s the key to be present (it panics otherwise);
that unreachable path is embedded as a no-op. -/
def dropRoot (roots : List (GcThing × Nat)) (root : GcThing) : List (GcThing × Nat) :=
  match hmGet roots root with
  | none => roots
  | some currentCount =>
    if currentCount = 1 then hmRemove roots root
    else hmInsert roots root (currentCount - 1)

/-- `Heap::get_or_create_symbol`: return the interned string pointer for
the name, allocating a fresh string and interning it on a miss.  String
allocation appends to the string pool (a fresh arena slot). -/
def getOrCreateSymbol (h : SchemeHeap) (str : String) : SchemeHeap × Value :=
  match hmGet h.symbolTable str with
  | some symPtr => (h, Value.symbol symPtr)
  | none =>
    let symPtr := h.stringPool.length
    ({ h with
        stringPool := h.stringPool ++ [str],
        symbolTable := hmInsert h.symbolTable str symPtr },
     Value.symbol symPtr)

/-! ## Garbage collection (`heap.rs`) -/

/-- The `Trace` implementations: the GC things directly referenced by a
GC thing.  A cons yields its car's and cdr's GC things; a string yields
nothing; an activation yields the GC things of its bound slots and then
its parent; a procedure yields its captured activation (its body is
deliberately not traced — meanings hold only rooted values).  An
out-of-range pointer (which the source could never trace safely) yields
nothing. -/
def traceThing (h : SchemeHeap) : GcThing → List GcThing
  | .cons i =>
    match h.consPool.get? i with
    | some cell => cell.car.toGcThing.toList ++ cell.cdr.toGcThing.toList
    | none => []
  | .string _ => []
  | .activation i =>
    match h.actPool.get? i with
    | some ad =>
      ad.vals.filterMap (fun ov => ov.bind Value.toGcThing)
        ++ (ad.parent.map GcThing.activation).toList
    | none => []
  | .procedure i =>
    match h.procPool.get? i with
    | some pd => (pd.act.map GcThing.activation).toList
    | none => []

/-- `Heap::get_roots`: every symbol-table string, then the global
activation, then every key of the root table. -/
def getRoots (h : SchemeHeap) : List GcThing :=
  h.symbolTable.map (fun p => GcThing.string p.2)
    ++ [GcThing.activation h.globalActivation]
    ++ h.roots.map (fun p => p.1)

/-- The body of the mark phase's inner loop: an unseen pending thing is
marked and its referents are queued; a seen one is skipped. -/
def ppStep (h : SchemeHeap) (mp : Finset GcThing × List GcThing)
    (t : GcThing) : Finset GcThing × List GcThing :=
  if t ∈ mp.1 then mp else (insert t mp.1, mp.2 ++ traceThing h t)

/-- One pass of the mark phase's inner loop: drain the pending list,
marking each unseen thing and queueing its referents. -/
def processPending (h : SchemeHeap) (marked : Finset GcThing)
    (pending : List GcThing) : Finset GcThing × List GcThing :=
  pending.foldl (ppStep h) (marked, [])

/-- The mark phase's outer loop (`collect_garbage`): repeat until the
pending list is empty.  The Rust loop has no bound; `fuel` is an upper
bound on the number of passes, and `gcFuel` below is proven sufficient
for the loop to reach its fixed point. -/
def markLoop (h : SchemeHeap) : Nat → Finset GcThing → List GcThing →
    Finset GcThing
  | 0, marked, _ => marked
  | fuel + 1, marked, pending =>
    if pending.isEmpty then marked
    else
      let mp := processPending h marked pending
      markLoop h fuel mp.1 mp.2

/-- Every valid (in-range) pool index, as a GC thing, for each traced
pool. -/
def allPoolThings (h : SchemeHeap) : List GcThing :=
  (List.range h.consPool.length).map GcThing.cons
    ++ (List.range h.actPool.length).map GcThing.activation
    ++ (List.range h.procPool.length).map GcThing.procedure

/-- A finite universe containing the roots and every trace target; the
mark phase never leaves it. -/
def gcUniverse (h : SchemeHeap) : Finset GcThing :=
  (getRoots h).toFinset
    ∪ (allPoolThings h).foldr (fun t acc => (traceThing h t).toFinset ∪ acc) ∅

/-- Enough passes for the mark loop to reach its fixed point. -/
def gcFuel (h : SchemeHeap) : Nat := (gcUniverse h).card + 2

/-- The marked set at the end of the mark phase of `collect_garbage`:
the loop seeded with the roots. -/
def gcMark (h : SchemeHeap) : Finset GcThing :=
  markLoop h (gcFuel h) ∅ (getRoots h)

/-- The free lists of the four arenas after `collect_garbage` sweeps
them: `Arena::sweep` sets the free list to
`range(0, capacity).filter(|n| !live.contains(n))`, where each arena's
live set is its slice of the marked set. -/
structure SweepResult where
  consFree : List Nat
  stringFree : List Nat
  actFree : List Nat
  procFree : List Nat

/-- `Heap::collect_garbage`: mark, partition the marked set by arena,
and sweep each arena. -/
def collectGarbage (h : SchemeHeap) : SweepResult :=
  let marked := gcMark h
  { consFree := (List.range h.consPool.length).filter
      (fun n => GcThing.cons n ∉ marked)
    stringFree := (List.range h.stringPool.length).filter
      (fun n => GcThing.string n ∉ marked)
    actFree := (List.range h.actPool.length).filter
      (fun n => GcThing.activation n ∉ marked)
    procFree := (List.range h.procPool.length).filter
      (fun n => GcThing.procedure n ∉ marked) }

/-- A GC thing survives the sweep when its arena's free list does not
reclaim its slot. -/
def preservedBySweep (s : SweepResult) : GcThing → Prop
  | .cons i => i ∉ s.consFree
  | .string i => i ∉ s.stringFree
  | .activation i => i ∉ s.actFree
  | .procedure i => i ∉ s.procFree

/-- Reachability from the GC roots along trace edges, at the moment
collection starts. -/
inductive Reachable (h : SchemeHeap) : GcThing → Prop where
  | root (t : GcThing) : t ∈ getRoots h → Reachable h t
  | step (t r : GcThing) : Reachable h t → r ∈ traceThing h t → Reachable h r

/-! ## Activation operations (`environment.rs`) -/

/-- `Activation::fetch`: walk `i` parent links, then read slot `j`;
`none` (the Rust `Err`) when the slot is out of bounds or unbound.  An
invalid activation pointer or a missing parent (which the source
dereferences or `expect`s, respectively) is also embedded as `none`;
the claims only use fetches along an existing parent chain. -/
def actFetch (h : SchemeHeap) : Nat → Nat → Nat → Option Value
  | act, 0, j =>
    match h.actPool.get? act with
    | some ad =>
      match ad.vals.get? j with
      | some (some v) => some v
      | _ => none
    | none => none
  | act, i + 1, j =>
    match h.actPool.get? act with
    | some ad =>
      match ad.parent with
      | some p => actFetch h p i j
      | none => none
    | none => none

/-- Overwrite slot `j` of activation `a` (whose current data is `ad`)
with `some v` in the activation pool. -/
def setActSlot (h : SchemeHeap) (a j : Nat) (ad : Activation) (v : Value) : SchemeHeap :=
  { h with actPool := h.actPool.set a ({ ad with vals := ad.vals.set j (some v) }) }

/-- `Activation::update`: walk `i` parent links, then overwrite slot
`j` when it is in bounds and bound (`Err`, i.e. `none`, otherwise). -/
def actUpdate (h : SchemeHeap) : Nat → Nat → Nat → Value → Option SchemeHeap
  | act, 0, j, v =>
    match h.actPool.get? act with
    | some ad =>
      match ad.vals.get? j with
      | some (some _) => some (setActSlot h act j ad v)
      | _ => none
    | none => none
  | act, i + 1, j, v =>
    match h.actPool.get? act with
    | some ad =>
      match ad.parent with
      | some p => actUpdate h p i j v
      | none => none
    | none => none

/-- `Activation::define`: pad the slots with the unbound sentinel up to
index `j` (`fill_to`), then store the value there. -/
def actDefine (h : SchemeHeap) (act j : Nat) (v : Value) : SchemeHeap :=
  match h.actPool.get? act with
  | some ad =>
    let filled := ad.vals ++ List.replicate (j + 1 - ad.vals.length) none
    { h with actPool := h.actPool.set act ({ ad with vals := filled.set j (some v) }) }
  | none => h

/-- Walking `i` parent links from an activation; used to state which
activation a `fetch`/`update` coordinate lands on. -/
def walkParents (h : SchemeHeap) : Nat → Nat → Option Nat
  | act, 0 => (h.actPool.get? act).map (fun _ => act)
  | act, i + 1 =>
    match h.actPool.get? act with
    | some ad =>
      match ad.parent with
      | some p => walkParents h p i
      | none => none
    | none => none

/-! ## The trampolined evaluator (`eval.rs`) -/

/-- The trampoline (`eval.rs`, `enum Trampoline`): a final value or a
deferred (activation, meaning) pair. -/
inductive Trampoline where
  | value (v : Value) : Trampoline
  | thunk (act : Nat) (m : Meaning) : Trampoline
deriving Repr

/-- The type of the primitive dispatcher: the embedding of the function
pointer stored in a `Value::Primitive`, looked up by primitive name. -/
def PrimFn : Type :=
  String → SchemeHeap → List Value → Except String (SchemeHeap × Trampoline)

/-- `apply_invocation` (`eval.rs`): dispatch on the callee value.  A
primitive calls its function; a user-defined procedure checks its arity
against the argument count (`Ordering::Less` means more arguments than
the arity) and on a match extends the captured activation with the
argument values (`Activation::extend`, a fresh activation whose parent
is the captured one), yielding a thunk of the body.  The source panics
on an uninitialized procedure; that is embedded as an error. -/
def applyInvocation (prim : PrimFn) (h : SchemeHeap) (procVal : Value)
    (args : List Value) : Except String (SchemeHeap × Trampoline) :=
  match procVal with
  | .primitive name => prim name h args
  | .procedure pIdx =>
    match h.procPool.get? pIdx with
    | some pd =>
      if pd.arity < args.length then Except.error "Too many arguments passed"
      else if args.length < pd.arity then Except.error "Too few arguments passed"
      else
        match pd.act, pd.body with
        | some a, some b =>
          Except.ok
            ({ h with actPool :=
                h.actPool ++ [{ parent := some a, vals := args.map some }] },
             Trampoline.thunk h.actPool.length b)
        | _, _ => Except.error "Should never see an uninitialized procedure!"
    | none => Except.error "invalid procedure pointer"
  | _ => Except.error "Expected a procedure"

mutual

/-- `Meaning::evaluate_to_thunk` (the per-variant evaluator functions of
`eval.rs`), with a fuel parameter standing for the unbounded Rust
recursion: fuel 0 is an artificial out-of-fuel error, every other
behavior mirrors the source (every nested evaluation runs with one
less fuel).  Heap allocation (`Value::new_procedure`,
`Activation::extend`) appends a fresh slot to the relevant pool. -/
def evalToThunk (prim : PrimFn) : Nat → SchemeHeap → Nat → Meaning →
    Except String (SchemeHeap × Trampoline)
  | 0, _, _, _ => Except.error "out of fuel"
  | fuel + 1, h, act, m =>
    match m with
    | .quotation v => Except.ok (h, Trampoline.value v)
    | .reference i j =>
      match actFetch h act i j with
      | some v => Except.ok (h, Trampoline.value v)
      | none => Except.error "Reference to variable that hasn't been defined"
    | .definition _ j dm => do
      let (h1, v) ← evalFull prim fuel h act dm
      let h2 := actDefine h1 act j v
      let (h3, sym) := getOrCreateSymbol h2 "unspecified"
      Except.ok (h3, Trampoline.value sym)
    | .setVariable i j dm => do
      let (h1, v) ← evalFull prim fuel h act dm
      match actUpdate h1 act i j v with
      | some h2 =>
        let (h3, sym) := getOrCreateSymbol h2 "unspecified"
        Except.ok (h3, Trampoline.value sym)
      | none => Except.error "Cannot set variable before it has been defined"
    | .conditional c t e => do
      let (h1, v) ← evalFull prim fuel h act c
      Except.ok (h1, Trampoline.thunk act
        (if v = Value.boolean false then e else t))
    | .sequence a b => do
      let (h1, _) ← evalFull prim fuel h act a
      Except.ok (h1, Trampoline.thunk act b)
    | .lambda arity body =>
      Except.ok
        ({ h with procPool :=
            h.procPool ++ [{ arity := arity, body := some body, act := some act }] },
         Trampoline.value (Value.procedure h.procPool.length))
    | .invocation head args => do
      let (h1, pv) ← evalFull prim fuel h act head
      let (h2, argvs) ← evalArgs prim fuel h1 act args
      applyInvocation prim h2 pv argvs

/-- `Trampoline::run`: keep evaluating thunks until a value. -/
def runTramp (prim : PrimFn) : Nat → SchemeHeap → Trampoline →
    Except String (SchemeHeap × Value)
  | _, h, .value v => Except.ok (h, v)
  | 0, _, .thunk _ _ => Except.error "out of fuel"
  | fuel + 1, h, .thunk a m => do
    let (h1, t1) ← evalToThunk prim fuel h a m
    runTramp prim fuel h1 t1

/-- `Meaning::evaluate`: evaluate to a thunk, then run the trampoline. -/
def evalFull (prim : PrimFn) : Nat → SchemeHeap → Nat → Meaning →
    Except String (SchemeHeap × Value)
  | 0, _, _, _ => Except.error "out of fuel"
  | fuel + 1, h, act, m => do
    let (h1, t) ← evalToThunk prim fuel h act m
    runTramp prim fuel h1 t

/-- Evaluation of invocation arguments, in source order
(`params.iter().map(|p| p.evaluate(heap, act)).collect()`). -/
def evalArgs (prim : PrimFn) : Nat → SchemeHeap → Nat → List Meaning →
    Except String (SchemeHeap × List Value)
  | _, h, _, [] => Except.ok (h, [])
  | 0, _, _, _ :: _ => Except.error "out of fuel"
  | fuel + 1, h, act, m :: rest => do
    let (h1, v) ← evalFull prim fuel h act m
    let (h2, vs) ← evalArgs prim fuel h1 act rest
    Except.ok (h2, v :: vs)

end

/-! ## List length and iteration (`value.rs`) -/

/-- `Value::len`: `Ok(0)` for the empty list, one more than the cdr's
length for a pair, `Err(())` for anything else.  The Rust recursion
through `cdr` has no termination guard (it diverges on a cyclic list);
`fuel` bounds it here, `none` standing for non-termination (or an
invalid cons pointer, which the source would dereference unsafely). -/
def lenFuel (h : SchemeHeap) : Nat → Value → Option (Except Unit Nat)
  | 0, _ => none
  | fuel + 1, v =>
    match v with
    | .emptyList => some (Except.ok 0)
    | .pair c =>
      match h.consPool.get? c with
      | some cell =>
        match lenFuel h fuel cell.cdr with
        | some (Except.ok n) => some (Except.ok (n + 1))
        | some (Except.error e) => some (Except.error e)
        | none => none
      | none => none
    | _ => some (Except.error ())

/-- The collected yields of `ConsIterator` (`value.rs`): the `Ok`
element values in order, paired with how iteration ended —
`Except.ok ()` for `None` after the empty list, `Except.error ()` for
the iterator's `Some(Err(()))` on a non-pair, non-empty tail. -/
def iterRun (h : SchemeHeap) : Nat → Value → Option (List Value × Except Unit Unit)
  | 0, _ => none
  | fuel + 1, v =>
    match v with
    | .emptyList => some ([], Except.ok ())
    | .pair c =>
      match h.consPool.get? c with
      | some cell =>
        match iterRun h fuel cell.cdr with
        | some (es, e) => some (cell.car :: es, e)
        | none => none
      | none => none
    | _ => some ([], Except.error ())

/-- The cdr-chain decomposition of a value: `ChainTo h v es w` holds
when following `cdr` pointers from `v` passes exactly the pairs whose
cars are `es` (in order) and ends at the non-pair value `w`.  A value
admits such a decomposition exactly when its cdr chain terminates, i.e.
when it is non-cyclic; `w = ()` makes it a proper list. -/
inductive ChainTo (h : SchemeHeap) : Value → List Value → Value → Prop where
  | atom (v : Value) : (∀ c, v ≠ Value.pair c) → ChainTo h v [] v
  | link (c : Nat) (cell : Cons) (es : List Value) (w : Value) :
      h.consPool.get? c = some cell → ChainTo h cell.cdr es w →
      ChainTo h (Value.pair c) (cell.car :: es) w

/-- A concrete heap for witnesses: cons 0 and 1 form the proper list
`(1 2)`; cons 2 is the improper list `(3 . 9)`. -/
def listHeap : SchemeHeap :=
  { consPool :=
      [{ car := Value.integer 1, cdr := Value.pair 1 },
       { car := Value.integer 2, cdr := Value.emptyList },
       { car := Value.integer 3, cdr := Value.integer 9 }]
    stringPool := []
    actPool := [{ parent := none, vals := [] }]
    procPool := []
    roots := []
    symbolTable := []
    globalActivation := 0 }

/-! ## Printing (`value.rs` `fmt::Display` and `print.rs`)

`value.rs`'s printer threads a mutable seen-set of cons cells and prints
an already-seen pair as `<cyclic value>`; `print.rs`'s printer has no
seen-set and recurses straight into the cdr.  Both are embedded with a
fuel bound standing for the unbounded Rust recursion (`none` = the run
did not finish within the fuel); for the cycle-aware printer every value
terminates with enough fuel, while the `print.rs` one returns `none`
for every fuel on a cyclic pair.  The character escapes follow the
source; a `Procedure` prints its pointer debug text in the source,
which has no observable content here beyond being a non-value string. -/

/-- The escape rules of `Value::Character` printing. -/
def printChar (ch : Char) : String :=
  if ch = '\n' then "#\\newline"
  else if ch = '\t' then "#\\tab"
  else if ch = ' ' then "#\\space"
  else "#\\" ++ ch.toString

mutual

/-- `print` (`value.rs`): format one value, threading the seen-set. -/
def printValueV (h : SchemeHeap) : Nat → Finset Nat → Value →
    Option (String × Finset Nat)
  | 0, _, _ => none
  | fuel + 1, seen, v =>
    match v with
    | .emptyList => some ("()", seen)
    | .pair c =>
      match printPairV h fuel seen c with
      | some (s, seen1) => some ("(" ++ s ++ ")", seen1)
      | none => none
    | .str i =>
      match h.stringPool.get? i with
      | some s => some ("\"" ++ s ++ "\"", seen)
      | none => none
    | .symbol i =>
      match h.stringPool.get? i with
      | some s => some (s, seen)
      | none => none
    | .integer n => some (toString n, seen)
    | .boolean b => some (if b then "#t" else "#f", seen)
    | .character ch => some (printChar ch, seen)
    | .procedure _ => some ("#<procedure>", seen)
    | .primitive name => some ("#<procedure " ++ name ++ ">", seen)

/-- `print_pair` (`value.rs`): an already-seen cons prints as
`<cyclic value>`; otherwise it is inserted into the seen-set, the car
is printed, a cdr pair already in the (updated) seen-set prints as
` . <cyclic value>`, and otherwise the tail is printed as in the
source's match on the cdr. -/
def printPairV (h : SchemeHeap) : Nat → Finset Nat → Nat →
    Option (String × Finset Nat)
  | 0, _, _ => none
  | fuel + 1, seen, c =>
    if c ∈ seen then some ("<cyclic value>", seen)
    else
      match h.consPool.get? c with
      | none => none
      | some cell =>
        match printValueV h fuel (insert c seen) cell.car with
        | none => none
        | some (carStr, seen2) =>
          match cell.cdr with
          | .emptyList => some (carStr, seen2)
          | .pair rest =>
            if rest ∈ seen2 then some (carStr ++ " . <cyclic value>", seen2)
            else
              match printPairV h fuel seen2 rest with
              | some (restStr, seen3) => some (carStr ++ " " ++ restStr, seen3)
              | none => none
          | other =>
            match printValueV h fuel seen2 other with
            | some (oStr, seen3) => some (carStr ++ " . " ++ oStr, seen3)
            | none => none

end

mutual

/-- `print` (`print.rs`): format one value with NO seen-set.  (This
older module's `Value` has no `Primitive` variant; that case is `none`
here.) -/
def printValueNS (h : SchemeHeap) : Nat → Value → Option String
  | 0, _ => none
  | fuel + 1, v =>
    match v with
    | .emptyList => some "()"
    | .pair c =>
      match printPairNS h fuel c with
      | some s => some ("(" ++ s ++ ")")
      | none => none
    | .str i =>
      match h.stringPool.get? i with
      | some s => some ("\"" ++ s ++ "\"")
      | none => none
    | .symbol i =>
      match h.stringPool.get? i with
      | some s => some s
      | none => none
    | .integer n => some (toString n)
    | .boolean b => some (if b then "#t" else "#f")
    | .character ch => some (printChar ch)
    | .procedure _ => some "Procedure"
    | .primitive _ => none

/-- `print_pair` (`print.rs`): recurse into the cdr with no cycle
detection. -/
def printPairNS (h : SchemeHeap) : Nat → Nat → Option String
  | 0, _ => none
  | fuel + 1, c =>
    match h.consPool.get? c with
    | none => none
    | some cell =>
      match printValueNS h fuel cell.car with
      | none => none
      | some carStr =>
        match cell.cdr with
        | .emptyList => some carStr
        | .pair rest =>
          match printPairNS h fuel rest with
          | some restStr => some (carStr ++ " " ++ restStr)
          | none => none
        | other =>
          match printValueNS h fuel other with
          | some oStr => some (carStr ++ " . " ++ oStr)
          | none => none

end

/-- A heap whose cons cell 0 is the self-referential pair built by
`(define p (cons 1 2)) (set-cdr! p p)`: car 1, cdr pointing back to the
cell itself. -/
def cyclicHeap : SchemeHeap :=
  { consPool := [{ car := Value.integer 1, cdr := Value.pair 0 }]
    stringPool := []
    actPool := [{ parent := none, vals := [] }]
    procPool := []
    roots := []
    symbolTable := []
    globalActivation := 0 }

/-! ## The CLI entry point (`main.rs`) and `evaluate_file` (`eval.rs`)

`evaluate_file` reads the file's forms and evaluates them in order; the
read results and per-form evaluation are abstracted as inputs (the
reader is an external collaborator, and evaluation is `evaluate` on the
analyzed form).  `main` in batch mode walks the file paths in order,
calling `evaluate_file` on each; a file's whole outcome is its
`evaluate_file` result.  On the first `Err(msg)` it writes
`Error: <msg>` to standard error and returns from `main` — the source
never calls `os::set_exit_status`, so the process exit status is 0 on
the error path exactly as on success. -/

/-- `evaluate_file` (`eval.rs`): starting from `Value::EmptyList`, each
read result is unwrapped (a read error aborts) and evaluated (an
evaluation error aborts); the final value is the last form's. -/
def evaluateFileModel (evalForm : Value → Except String Value) :
    List (Except String Value) → Value → Except String Value
  | [], acc => Except.ok acc
  | r :: rest, _acc =>
    match r with
    | .error e => Except.error e
    | .ok form =>
      match evalForm form with
      | .error e => Except.error e
      | .ok v => evaluateFileModel evalForm rest v

/-- `main` (`main.rs`) over the per-file `evaluate_file` outcomes:
returns the process exit status and the text written to standard
error. -/
def mainBatch : List (Except String Value) → Nat × Option String
  | [] => (0, none)
  | o :: rest =>
    match o with
    | .ok _ => mainBatch rest
    | .error msg => (0, some ("Error: " ++ msg))

/-- A primitive dispatcher with no primitives installed; enough for the
claims, which do not invoke primitives. -/
def primNone : PrimFn := fun _ _ _ => Except.error "no primitive"

/-- A heap holding only the (empty) global activation, as built by
`Heap::with_arenas` before any program runs. -/
def emptyHeap : SchemeHeap :=
  { consPool := []
    stringPool := []
    actPool := [{ parent := none, vals := [] }]
    procPool := []
    roots := []
    symbolTable := []
    globalActivation := 0 }

end Oxischeme

namespace Oxischeme

/-! ## Theorems: C5, C6, C9 support lemmas -/

theorem hmGet_hmInsert_self {α β : Type} [DecidableEq α]
    (m : List (α × β)) (k : α) (v : β) : hmGet (hmInsert m k v) k = some v := by
  induction m with
  | nil => simp [hmInsert, hmGet]
  | cons p rest ih =>
    by_cases hp : p.1 = k
    · simp [hmInsert, hp, hmGet]
    · simpa [hmInsert, hp, hmGet] using ih

theorem hmInsert_of_absent {α β : Type} [DecidableEq α]
    (m : List (α × β)) (k : α) (v : β) (habs : hmGet m k = none) :
    hmInsert m k v = m ++ [(k, v)] := by
  induction m with
  | nil => simp [hmInsert]
  | cons p rest ih =>
    by_cases hp : p.1 = k
    · simp [hmGet, hp] at habs
    · have : hmGet rest k = none := by simpa [hmGet, hp] using habs
      simp [hmInsert, hp, ih this]

theorem hmRemove_append_of_absent {α β : Type} [DecidableEq α]
    (m : List (α × β)) (k : α) (v : β) (habs : hmGet m k = none) :
    hmRemove (m ++ [(k, v)]) k = m := by
  induction m with
  | nil => simp [hmRemove]
  | cons p rest ih =>
    by_cases hp : p.1 = k
    · simp [hmGet, hp] at habs
    · have : hmGet rest k = none := by simpa [hmGet, hp] using habs
      simp [hmRemove, hp, ih this]

theorem hmInsert_hmInsert {α β : Type} [DecidableEq α]
    (m : List (α × β)) (k : α) (v w : β) :
    hmInsert (hmInsert m k v) k w = hmInsert m k w := by
  induction m with
  | nil => simp [hmInsert]
  | cons p rest ih =>
    by_cases hp : p.1 = k
    · simp [hmInsert, hp]
    · simp [hmInsert, hp, ih]

theorem hmInsert_self_of_get {α β : Type} [DecidableEq α]
    (m : List (α × β)) (k : α) (v : β) (hget : hmGet m k = some v) :
    hmInsert m k v = m := by
  induction m with
  | nil => simp [hmGet] at hget
  | cons p rest ih =>
    by_cases hp : p.1 = k
    · have hv : p.2 = v := by simpa [hmGet, hp] using hget
      have : p = (k, v) := by cases p; simp_all
      simp [hmInsert, hp, this]
    · have : hmGet rest k = some v := by simpa [hmGet, hp] using hget
      simp [hmInsert, hp, ih this]

theorem hmGet_mem {α β : Type} [DecidableEq α]
    (m : List (α × β)) (k : α) (v : β) (hget : hmGet m k = some v) :
    (k, v) ∈ m := by
  induction m with
  | nil => simp [hmGet] at hget
  | cons p rest ih =>
    by_cases hp : p.1 = k
    · have hv : p.2 = v := by simpa [hmGet, hp] using hget
      have : p = (k, v) := by cases p; simp_all
      simp [this]
    · have : hmGet rest k = some v := by simpa [hmGet, hp] using hget
      exact List.mem_cons_of_mem _ (ih this)

theorem mem_hmInsert {α β : Type} [DecidableEq α]
    (m : List (α × β)) (k : α) (v : β) (p : α × β) :
    p ∈ hmInsert m k v → p ∈ m ∨ p = (k, v) := by
  induction m with
  | nil => intro hp; simpa [hmInsert] using hp
  | cons q rest ih =>
    intro hp
    by_cases hq : q.1 = k
    · simp only [hmInsert, hq, if_true, List.mem_cons] at hp
      rcases hp with hp | hp
      · right; exact hp
      · left; exact List.mem_cons_of_mem _ hp
    · simp only [hmInsert, hq, if_false, List.mem_cons] at hp
      rcases hp with hp | hp
      · left; simp [hp]
      · rcases ih hp with h | h
        · left; exact List.mem_cons_of_mem _ h
        · right; exact h

theorem mem_hmRemove {α β : Type} [DecidableEq α]
    (m : List (α × β)) (k : α) (p : α × β) :
    p ∈ hmRemove m k → p ∈ m := by
  induction m with
  | nil => intro hp; simp [hmRemove] at hp
  | cons q rest ih =>
    intro hp
    by_cases hq : q.1 = k
    · simp only [hmRemove, hq, if_true] at hp
      exact List.mem_cons_of_mem _ hp
    · simp only [hmRemove, hq, if_false, List.mem_cons] at hp
      rcases hp with hp | hp
      · subst hp; exact List.mem_cons_self _ _
      · exact List.mem_cons_of_mem _ (ih hp)

/-- C9 helper: the add/drop round trip on a well-formed root table. -/
theorem dropRoot_addRoot (roots : List (GcThing × Nat)) (g : GcThing)
    (hpos : ∀ p ∈ roots, 0 < p.2) :
    dropRoot (addRoot roots g) g = roots := by
  have hgot : hmGet (addRoot roots g) g = some ((hmGet roots g).getD 0 + 1) :=
    hmGet_hmInsert_self _ _ _
  cases hget : hmGet roots g with
  | none =>
    rw [hget] at hgot
    simp only [Option.getD_none] at hgot
    simp only [dropRoot, hgot, if_pos rfl]
    have haddeq : addRoot roots g = roots ++ [(g, 1)] := by
      show hmInsert roots g ((hmGet roots g).getD 0 + 1) = roots ++ [(g, 1)]
      rw [hget]
      exact hmInsert_of_absent _ _ _ hget
    rw [haddeq]
    exact hmRemove_append_of_absent _ _ _ hget
  | some c =>
    have hc : 0 < c := hpos _ (hmGet_mem _ _ _ hget)
    rw [hget] at hgot
    simp only [Option.getD_some] at hgot
    simp only [dropRoot, hgot]
    rw [if_neg (by omega : ¬(c + 1 = 1))]
    have haddeq : addRoot roots g = hmInsert roots g (c + 1) := by
      show hmInsert roots g ((hmGet roots g).getD 0 + 1) = hmInsert roots g (c + 1)
      rw [hget]
      rfl
    rw [haddeq, hmInsert_hmInsert, (by omega : c + 1 - 1 = c),
      hmInsert_self_of_get _ _ _ hget]

/-- CLAIM C9: `add_root(g)` then `drop_root(g)` restores the root table
exactly (add increments the count, inserting it at 1 when absent; drop
decrements and removes the key at 0), and neither operation ever leaves
a key with count 0 in a table whose counts were all positive. -/
theorem add_then_drop_root_restores_roots
    (roots : List (GcThing × Nat)) (g : GcThing)
    (hpos : ∀ p ∈ roots, 0 < p.2) :
    dropRoot (addRoot roots g) g = roots ∧
    (∀ p ∈ addRoot roots g, 0 < p.2) ∧
    (∀ p ∈ dropRoot roots g, 0 < p.2) := by
  refine ⟨dropRoot_addRoot roots g hpos, ?_, ?_⟩
  · intro p hp
    rcases mem_hmInsert _ _ _ _ hp with h | h
    · exact hpos _ h
    · subst h; omega
  · intro p hp
    cases hget : hmGet roots g with
    | none =>
      simp only [dropRoot, hget] at hp
      exact hpos _ hp
    | some c =>
      have hc : 0 < c := hpos _ (hmGet_mem _ _ _ hget)
      simp only [dropRoot, hget] at hp
      by_cases h1 : c = 1
      · rw [if_pos h1] at hp
        exact hpos _ (mem_hmRemove _ _ _ hp)
      · rw [if_neg h1] at hp
        rcases mem_hmInsert _ _ _ _ hp with h | h
        · exact hpos _ h
        · subst h; simp only; omega

/-- C9 witness: the round trip at a concrete table. -/
theorem add_then_drop_root_restores_roots_witness :
    dropRoot (addRoot [(GcThing.cons 3, 2)] (GcThing.string 1)) (GcThing.string 1)
      = [(GcThing.cons 3, 2)] ∧
    (∀ p ∈ addRoot [(GcThing.cons 3, 2)] (GcThing.string 1), 0 < p.2) ∧
    (∀ p ∈ dropRoot [(GcThing.cons 3, 2)] (GcThing.string 1), 0 < p.2) :=
  add_then_drop_root_restores_roots [(GcThing.cons 3, 2)] (GcThing.string 1)
    (by decide)

/-! ## C5: the static environment -/

theorem lookup_go_none (name : String) (frames : List Frame) (i0 : Nat) :
    Env.lookup.go name frames i0 = none ↔ ∀ f ∈ frames, hmGet f name = none := by
  induction frames generalizing i0 with
  | nil => simp [Env.lookup.go]
  | cons f rest ih =>
    cases hf : hmGet f name with
    | none =>
      simp only [Env.lookup.go, hf]
      rw [ih (i0 + 1)]
      constructor
      · intro hall g hg
        rcases List.mem_cons.mp hg with hg | hg
        · subst hg; exact hf
        · exact hall g hg
      · intro hall g hg
        exact hall g (List.mem_cons_of_mem _ hg)
    | some j0 =>
      simp only [Env.lookup.go, hf]
      constructor
      · intro hcontra; exact absurd hcontra (by simp)
      · intro hall
        have hnone := hall f (List.mem_cons_self _ _)
        rw [hf] at hnone
        exact absurd hnone (by simp)

theorem lookup_go_some (name : String) (frames : List Frame) (i0 i j : Nat) :
    Env.lookup.go name frames i0 = some (i, j) →
    ∃ d, i = i0 + d ∧
      (∃ f, frames.get? d = some f ∧ hmGet f name = some j) ∧
      ∀ k, k < d → ∀ g, frames.get? k = some g → hmGet g name = none := by
  induction frames generalizing i0 with
  | nil => intro hcontra; simp [Env.lookup.go] at hcontra
  | cons f rest ih =>
    intro hgo
    cases hf : hmGet f name with
    | some j0 =>
      simp only [Env.lookup.go, hf] at hgo
      have hij : i0 = i ∧ j0 = j := by simpa using hgo
      refine ⟨0, by omega, ⟨f, rfl, by rw [hf, hij.2]⟩, ?_⟩
      intro k hk
      omega
    | none =>
      simp only [Env.lookup.go, hf] at hgo
      rcases ih (i0 + 1) hgo with ⟨d, hi, ⟨g, hget, hg⟩, hprev⟩
      refine ⟨d + 1, by omega, ⟨g, by simpa using hget, hg⟩, ?_⟩
      intro k hk g' hg'
      cases k with
      | zero =>
        simp only [List.get?_cons_zero] at hg'
        cases hg'; exact hf
      | succ k' =>
        simp only [List.get?_cons_succ] at hg'
        exact hprev k' (by omega) g' hg'

/-- CLAIM C5: `define` returns `(0, s)` for a name already present in
the innermost frame at slot `s` (re-definition in the same block is
idempotent: the environment is unchanged and no slot is allocated),
and otherwise allocates the fresh slot equal to the frame's previous
size; `lookup` scans frames innermost-outwards and returns the 0-based
hop distance to the first frame containing the name together with its
slot there, or `none` when no frame contains the name. -/
theorem env_define_lookup_spec (env : Env) (name : String)
    (hne : env.bindings ≠ []) :
    (∀ s, hmGet (env.bindings.getLast hne) name = some s →
        Env.define env name = (env, 0, s)) ∧
    (hmGet (env.bindings.getLast hne) name = none →
        Env.define env name =
          ({ bindings := env.bindings.dropLast ++
              [hmInsert (env.bindings.getLast hne) name
                (env.bindings.getLast hne).length] },
           0, (env.bindings.getLast hne).length)) ∧
    (∀ i j, Env.lookup env name = some (i, j) →
        ∃ f, env.bindings.reverse.get? i = some f ∧ hmGet f name = some j ∧
          ∀ k, k < i → ∀ g, env.bindings.reverse.get? k = some g →
            hmGet g name = none) ∧
    (Env.lookup env name = none ↔ ∀ f ∈ env.bindings, hmGet f name = none) := by
  have hlast : env.bindings.getLast? = some (env.bindings.getLast hne) :=
    List.getLast?_eq_getLast _ hne
  refine ⟨?_, ?_, ?_, ?_⟩
  · intro s hs
    simp only [Env.define, hlast, hs]
  · intro habs
    simp only [Env.define, hlast, habs]
  · intro i j hl
    unfold Env.lookup at hl
    rcases lookup_go_some name env.bindings.reverse 0 i j hl
      with ⟨d, hi, ⟨f, hget, hf⟩, hprev⟩
    refine ⟨f, ?_, hf, ?_⟩
    · rw [hi]; simpa using hget
    · intro k hk g hg
      exact hprev k (by omega) g hg
  · unfold Env.lookup
    rw [lookup_go_none]
    constructor
    · intro hall f hf
      exact hall f (by simpa using hf)
    · intro hall f hf
      exact hall f (by simpa using hf)

/-- C5 witness: an environment with a global frame `x ↦ 0` and an inner
frame `y ↦ 0`: looking up `x` hops one frame out, re-defining `y`
returns its existing slot, and defining `z` allocates slot 1. -/
theorem env_define_lookup_spec_witness :
    ([[("x", 0)], [("y", 0)]] : List Frame) ≠ [] ∧
    Env.define { bindings := [[("x", 0)], [("y", 0)]] } "y"
      = ({ bindings := [[("x", 0)], [("y", 0)]] }, 0, 0) ∧
    Env.lookup { bindings := [[("x", 0)], [("y", 0)]] } "x" = some (1, 0) := by
  have h := env_define_lookup_spec { bindings := [[("x", 0)], [("y", 0)]] } "y"
    (by simp)
  refine ⟨by simp, ?_, by decide⟩
  exact h.1 0 (by decide)

/-! ## C6: symbol interning -/

/-- CLAIM C6: two `get_or_create_symbol` calls with the same name (on
the heap resulting from the first call) return the same symbol value —
the same string pointer, hence `eq?`-equal — and the second call leaves
the heap untouched: each name is interned at most once. -/
theorem get_or_create_symbol_interns (h : SchemeHeap) (s : String) :
    (getOrCreateSymbol (getOrCreateSymbol h s).1 s).2 = (getOrCreateSymbol h s).2 ∧
    (getOrCreateSymbol (getOrCreateSymbol h s).1 s).1 = (getOrCreateSymbol h s).1 ∧
    ∃ ptr, (getOrCreateSymbol h s).2 = Value.symbol ptr ∧
      hmGet (getOrCreateSymbol h s).1.symbolTable s = some ptr := by
  cases hget : hmGet h.symbolTable s with
  | some ptr =>
    have h1 : getOrCreateSymbol h s = (h, Value.symbol ptr) := by
      simp only [getOrCreateSymbol, hget]
    refine ⟨?_, ?_, ptr, ?_, ?_⟩ <;> simp [h1, hget]
  | none =>
    have h1 : getOrCreateSymbol h s =
        ({ h with stringPool := h.stringPool ++ [s],
                  symbolTable := hmInsert h.symbolTable s h.stringPool.length },
         Value.symbol h.stringPool.length) := by
      simp only [getOrCreateSymbol, hget]
    have hgot2 : hmGet (getOrCreateSymbol h s).1.symbolTable s
        = some h.stringPool.length := by
      rw [h1]; exact hmGet_hmInsert_self _ _ _
    have hhit : ∀ g1 : SchemeHeap,
        hmGet g1.symbolTable s = some h.stringPool.length →
        getOrCreateSymbol g1 s = (g1, Value.symbol h.stringPool.length) := by
      intro g1 hg1
      simp only [getOrCreateSymbol, hg1]
    have h2 : getOrCreateSymbol (getOrCreateSymbol h s).1 s
        = ((getOrCreateSymbol h s).1, Value.symbol h.stringPool.length) :=
      hhit _ hgot2
    refine ⟨?_, ?_, h.stringPool.length, ?_, hgot2⟩
    · rw [h2, h1]
    · rw [h2]
    · rw [h1]

theorem except_bind_ok {e a b : Type} (x : a) (f : a → Except e b) :
    (Except.ok x : Except e a) >>= f = f x := rfl

theorem except_bind_error {e a b : Type} (s : e) (f : a → Except e b) :
    (Except.error s : Except e a) >>= f = Except.error s := rfl

/-! ## C2: procedure application -/

/-- CLAIM C2: invoking a user-defined procedure with too many arguments
fails with the "too many arguments" error, with too few the "too few
arguments" error, and with exactly `arity` arguments yields a thunk of
the procedure body over a freshly allocated activation whose parent is
the captured activation and whose slots are the argument values in
order. -/
theorem apply_invocation_procedure_spec (prim : PrimFn) (h : SchemeHeap)
    (pIdx : Nat) (pd : SchemeProc) (a : Nat) (b : Meaning) (args : List Value)
    (hp : h.procPool.get? pIdx = some pd)
    (ha : pd.act = some a) (hb : pd.body = some b) :
    (pd.arity < args.length →
      applyInvocation prim h (Value.procedure pIdx) args
        = Except.error "Too many arguments passed") ∧
    (args.length < pd.arity →
      applyInvocation prim h (Value.procedure pIdx) args
        = Except.error "Too few arguments passed") ∧
    (args.length = pd.arity →
      applyInvocation prim h (Value.procedure pIdx) args
        = Except.ok
            ({ h with actPool :=
                h.actPool ++ [{ parent := some a, vals := args.map some }] },
             Trampoline.thunk h.actPool.length b)) := by
  rw [List.get?_eq_getElem?] at hp
  refine ⟨?_, ?_, ?_⟩
  · intro hlt
    simp [applyInvocation, hp, hlt]
  · intro hgt
    have hnlt : ¬(pd.arity < args.length) := by omega
    simp [applyInvocation, hp, hnlt, hgt]
  · intro heq
    have hnlt : ¬(pd.arity < args.length) := by omega
    have hngt : ¬(args.length < pd.arity) := by omega
    simp [applyInvocation, hp, hnlt, hngt, ha, hb]

/-- C2 witness: a one-argument closure applied to zero, one and two
arguments. -/
theorem apply_invocation_procedure_spec_witness :
    (applyInvocation primNone
        { emptyHeap with
            procPool := [{ arity := 1, body := some (Meaning.reference 0 0),
                           act := some 0 }] }
        (Value.procedure 0) [Value.integer 5, Value.integer 6]
      = Except.error "Too many arguments passed") ∧
    (applyInvocation primNone
        { emptyHeap with
            procPool := [{ arity := 1, body := some (Meaning.reference 0 0),
                           act := some 0 }] }
        (Value.procedure 0) []
      = Except.error "Too few arguments passed") ∧
    (applyInvocation primNone
        { emptyHeap with
            procPool := [{ arity := 1, body := some (Meaning.reference 0 0),
                           act := some 0 }] }
        (Value.procedure 0) [Value.integer 5]
      = Except.ok
          ({ emptyHeap with
              procPool := [{ arity := 1, body := some (Meaning.reference 0 0),
                             act := some 0 }],
              actPool := emptyHeap.actPool ++
                [{ parent := some 0, vals := [Value.integer 5].map some }] },
           Trampoline.thunk emptyHeap.actPool.length (Meaning.reference 0 0))) := by
  have h := apply_invocation_procedure_spec primNone
    { emptyHeap with
        procPool := [{ arity := 1, body := some (Meaning.reference 0 0),
                       act := some 0 }] }
    0 { arity := 1, body := some (Meaning.reference 0 0), act := some 0 }
    0 (Meaning.reference 0 0)
  refine ⟨?_, ?_, ?_⟩
  · exact (h [Value.integer 5, Value.integer 6] rfl rfl rfl).1 (by decide)
  · exact (h [] rfl rfl rfl).2.1 (by decide)
  · exact (h [Value.integer 5] rfl rfl rfl).2.2 (by decide)

/-! ## C3: conditional evaluation -/

/-- CLAIM C3: evaluating `Conditional(c, t, e)` first evaluates `c`
(errors from `c` propagate) and yields `Thunk(act, e)` exactly when the
value of `c` is the false boolean, and `Thunk(act, t)` for every other
value — every non-`#f` value selects the consequent. -/
theorem evaluate_conditional_spec (prim : PrimFn) (fuel : Nat)
    (h : SchemeHeap) (act : Nat) (c t e : Meaning) :
    (∀ h1 v, evalFull prim fuel h act c = Except.ok (h1, v) →
      evalToThunk prim (fuel + 1) h act (Meaning.conditional c t e)
        = Except.ok (h1, Trampoline.thunk act
            (if v = Value.boolean false then e else t)) ∧
      (v = Value.boolean false →
        evalToThunk prim (fuel + 1) h act (Meaning.conditional c t e)
          = Except.ok (h1, Trampoline.thunk act e)) ∧
      (v ≠ Value.boolean false →
        evalToThunk prim (fuel + 1) h act (Meaning.conditional c t e)
          = Except.ok (h1, Trampoline.thunk act t))) ∧
    (∀ s, evalFull prim fuel h act c = Except.error s →
      evalToThunk prim (fuel + 1) h act (Meaning.conditional c t e)
        = Except.error s) := by
  constructor
  · intro h1 v hc
    have hmain : evalToThunk prim (fuel + 1) h act (Meaning.conditional c t e)
        = Except.ok (h1, Trampoline.thunk act
            (if v = Value.boolean false then e else t)) := by
      simp only [evalToThunk, hc]
      rfl
    refine ⟨hmain, ?_, ?_⟩
    · intro hv
      rw [hmain, if_pos hv]
    · intro hv
      rw [hmain, if_neg hv]
  · intro s hc
    simp only [evalToThunk, hc]
    rfl

/-- C3 witness: the empty list (a truthy non-boolean) selects the
consequent, `#f` selects the alternative. -/
theorem evaluate_conditional_spec_witness :
    evalToThunk primNone 3 emptyHeap 0
        (Meaning.conditional (Meaning.quotation Value.emptyList)
          (Meaning.quotation (Value.integer 1))
          (Meaning.quotation (Value.integer 2)))
      = Except.ok (emptyHeap,
          Trampoline.thunk 0 (Meaning.quotation (Value.integer 1))) ∧
    evalToThunk primNone 3 emptyHeap 0
        (Meaning.conditional (Meaning.quotation (Value.boolean false))
          (Meaning.quotation (Value.integer 1))
          (Meaning.quotation (Value.integer 2)))
      = Except.ok (emptyHeap,
          Trampoline.thunk 0 (Meaning.quotation (Value.integer 2))) := by
  constructor
  · exact ((evaluate_conditional_spec primNone 2 emptyHeap 0
      (Meaning.quotation Value.emptyList)
      (Meaning.quotation (Value.integer 1))
      (Meaning.quotation (Value.integer 2))).1
      emptyHeap Value.emptyList
      (by simp [evalFull, evalToThunk, runTramp, except_bind_ok])).2.2
      (by decide)
  · exact ((evaluate_conditional_spec primNone 2 emptyHeap 0
      (Meaning.quotation (Value.boolean false))
      (Meaning.quotation (Value.integer 1))
      (Meaning.quotation (Value.integer 2))).1
      emptyHeap (Value.boolean false)
      (by simp [evalFull, evalToThunk, runTramp, except_bind_ok])).2.1 rfl

/-! ## C4: variable reference and assignment -/

theorem actFetch_bound (h : SchemeHeap) (j : Nat) (v : Value) :
    ∀ i act a ad, walkParents h act i = some a → h.actPool.get? a = some ad →
      ad.vals.get? j = some (some v) → actFetch h act i j = some v := by
  intro i
  induction i with
  | zero =>
    intro act a ad hw had hv
    simp only [walkParents] at hw
    cases hga : h.actPool.get? act with
    | none => rw [hga] at hw; simp at hw
    | some ad0 =>
      rw [hga] at hw
      have ha : act = a := by simpa using hw
      subst ha
      have hadeq : ad0 = ad := by rw [hga] at had; exact Option.some.inj had
      subst hadeq
      simp only [actFetch, hga, hv]
  | succ i ih =>
    intro act a ad hw had hv
    simp only [walkParents] at hw
    cases hga : h.actPool.get? act with
    | none => rw [hga] at hw; simp at hw
    | some ad0 =>
      simp only [hga] at hw
      cases hp : ad0.parent with
      | none => rw [hp] at hw; simp at hw
      | some p =>
        simp only [hp] at hw
        simp only [actFetch, hga, hp]
        exact ih p a ad hw had hv

theorem actFetch_unbound (h : SchemeHeap) (j : Nat) :
    ∀ i act a ad, walkParents h act i = some a → h.actPool.get? a = some ad →
      (ad.vals.get? j = none ∨ ad.vals.get? j = some none) →
      actFetch h act i j = none := by
  intro i
  induction i with
  | zero =>
    intro act a ad hw had hv
    simp only [walkParents] at hw
    cases hga : h.actPool.get? act with
    | none => rw [hga] at hw; simp at hw
    | some ad0 =>
      rw [hga] at hw
      have ha : act = a := by simpa using hw
      subst ha
      have hadeq : ad0 = ad := by rw [hga] at had; exact Option.some.inj had
      subst hadeq
      rcases hv with hv | hv <;> simp only [actFetch, hga, hv]
  | succ i ih =>
    intro act a ad hw had hv
    simp only [walkParents] at hw
    cases hga : h.actPool.get? act with
    | none => rw [hga] at hw; simp at hw
    | some ad0 =>
      simp only [hga] at hw
      cases hp : ad0.parent with
      | none => rw [hp] at hw; simp at hw
      | some p =>
        simp only [hp] at hw
        simp only [actFetch, hga, hp]
        exact ih p a ad hw had hv

theorem actUpdate_bound (h : SchemeHeap) (j : Nat) (v w : Value) :
    ∀ i act a ad, walkParents h act i = some a → h.actPool.get? a = some ad →
      ad.vals.get? j = some (some w) →
      actUpdate h act i j v = some (setActSlot h a j ad v) := by
  intro i
  induction i with
  | zero =>
    intro act a ad hw had hv
    simp only [walkParents] at hw
    cases hga : h.actPool.get? act with
    | none => rw [hga] at hw; simp at hw
    | some ad0 =>
      rw [hga] at hw
      have ha : act = a := by simpa using hw
      subst ha
      have hadeq : ad0 = ad := by rw [hga] at had; exact Option.some.inj had
      subst hadeq
      simp only [actUpdate, hga, hv]
  | succ i ih =>
    intro act a ad hw had hv
    simp only [walkParents] at hw
    cases hga : h.actPool.get? act with
    | none => rw [hga] at hw; simp at hw
    | some ad0 =>
      simp only [hga] at hw
      cases hp : ad0.parent with
      | none => rw [hp] at hw; simp at hw
      | some p =>
        simp only [hp] at hw
        simp only [actUpdate, hga, hp]
        exact ih p a ad hw had hv

theorem actUpdate_unbound (h : SchemeHeap) (j : Nat) (v : Value) :
    ∀ i act a ad, walkParents h act i = some a → h.actPool.get? a = some ad →
      (ad.vals.get? j = none ∨ ad.vals.get? j = some none) →
      actUpdate h act i j v = none := by
  intro i
  induction i with
  | zero =>
    intro act a ad hw had hv
    simp only [walkParents] at hw
    cases hga : h.actPool.get? act with
    | none => rw [hga] at hw; simp at hw
    | some ad0 =>
      rw [hga] at hw
      have ha : act = a := by simpa using hw
      subst ha
      have hadeq : ad0 = ad := by rw [hga] at had; exact Option.some.inj had
      subst hadeq
      rcases hv with hv | hv <;> simp only [actUpdate, hga, hv]
  | succ i ih =>
    intro act a ad hw had hv
    simp only [walkParents] at hw
    cases hga : h.actPool.get? act with
    | none => rw [hga] at hw; simp at hw
    | some ad0 =>
      simp only [hga] at hw
      cases hp : ad0.parent with
      | none => rw [hp] at hw; simp at hw
      | some p =>
        simp only [hp] at hw
        simp only [actUpdate, hga, hp]
        exact ih p a ad hw had hv

/-- CLAIM C4: with `a` the activation reached after walking `i` parent
links, `Reference(i, j)` errors with "Reference to variable that hasn't
been defined" exactly when slot `j` of `a` is out of bounds or unbound
and otherwise yields the slot's value; `SetVariable(i, j, m)` first
evaluates `m` and then errors with "Cannot set variable before it has
been defined" exactly when that slot is out of bounds or unbound, and
otherwise stores the value in the slot. -/
theorem reference_set_variable_spec (prim : PrimFn) (fuel : Nat)
    (h : SchemeHeap) (act i j a : Nat) (ad : Activation)
    (hw : walkParents h act i = some a) (had : h.actPool.get? a = some ad) :
    (∀ v, ad.vals.get? j = some (some v) →
      evalToThunk prim (fuel + 1) h act (Meaning.reference i j)
        = Except.ok (h, Trampoline.value v)) ∧
    ((ad.vals.get? j = none ∨ ad.vals.get? j = some none) →
      evalToThunk prim (fuel + 1) h act (Meaning.reference i j)
        = Except.error "Reference to variable that hasn't been defined") ∧
    (∀ m h1 v a1 ad1, evalFull prim fuel h act m = Except.ok (h1, v) →
      walkParents h1 act i = some a1 → h1.actPool.get? a1 = some ad1 →
      ((ad1.vals.get? j = none ∨ ad1.vals.get? j = some none) →
        evalToThunk prim (fuel + 1) h act (Meaning.setVariable i j m)
          = Except.error "Cannot set variable before it has been defined") ∧
      (∀ w, ad1.vals.get? j = some (some w) →
        evalToThunk prim (fuel + 1) h act (Meaning.setVariable i j m)
          = (let p := getOrCreateSymbol (setActSlot h1 a1 j ad1 v) "unspecified"
             Except.ok (p.1, Trampoline.value p.2)))) := by
  refine ⟨?_, ?_, ?_⟩
  · intro v hv
    simp only [evalToThunk, actFetch_bound h j v i act a ad hw had hv]
  · intro hv
    simp only [evalToThunk, actFetch_unbound h j i act a ad hw had hv]
  · intro m h1 v a1 ad1 hm hw1 had1
    constructor
    · intro hv
      simp only [evalToThunk, hm, except_bind_ok,
        actUpdate_unbound h1 j v i act a1 ad1 hw1 had1 hv]
    · intro w hv
      simp only [evalToThunk, hm, except_bind_ok,
        actUpdate_bound h1 j v w i act a1 ad1 hw1 had1 hv]

/-- C4 witness: an activation with slot 0 bound to 7 and slot 1 unbound:
referencing slot 0 yields 7, referencing or setting slot 1 errors. -/
theorem reference_set_variable_spec_witness :
    evalToThunk primNone 3 { emptyHeap with
        actPool := [{ parent := none, vals := [some (Value.integer 7), none] }] }
      0 (Meaning.reference 0 0)
      = Except.ok ({ emptyHeap with
          actPool := [{ parent := none, vals := [some (Value.integer 7), none] }] },
        Trampoline.value (Value.integer 7)) ∧
    evalToThunk primNone 3 { emptyHeap with
        actPool := [{ parent := none, vals := [some (Value.integer 7), none] }] }
      0 (Meaning.reference 0 1)
      = Except.error "Reference to variable that hasn't been defined" ∧
    evalToThunk primNone 3 { emptyHeap with
        actPool := [{ parent := none, vals := [some (Value.integer 7), none] }] }
      0 (Meaning.setVariable 0 1 (Meaning.quotation (Value.integer 9)))
      = Except.error "Cannot set variable before it has been defined" := by
  have h := reference_set_variable_spec primNone 2
    { emptyHeap with
        actPool := [{ parent := none, vals := [some (Value.integer 7), none] }] }
    0 0 0 0 { parent := none, vals := [some (Value.integer 7), none] } rfl rfl
  have h1 := reference_set_variable_spec primNone 2
    { emptyHeap with
        actPool := [{ parent := none, vals := [some (Value.integer 7), none] }] }
    0 0 1 0 { parent := none, vals := [some (Value.integer 7), none] } rfl rfl
  refine ⟨h.1 (Value.integer 7) rfl, h1.2.1 (Or.inr rfl), ?_⟩
  exact (h1.2.2 (Meaning.quotation (Value.integer 9))
    { emptyHeap with
        actPool := [{ parent := none, vals := [some (Value.integer 7), none] }] }
    (Value.integer 9) 0 { parent := none, vals := [some (Value.integer 7), none] }
    (by simp [evalFull, evalToThunk, runTramp, except_bind_ok]) rfl rfl).1
    (Or.inr rfl)

/-! ## C10: list length and the cons iterator -/

/-- CLAIM C10: for a non-cyclic value whose cdr chain passes the pairs
with cars `es` and ends at `w`, `Value::len` returns `Ok(es.length)`
when `w` is the empty list (a proper list of that many pairs) and
`Err(())` for every other ending (improper lists and non-list values),
and the `ConsIterator` yields exactly the element values `es` in order,
ending with `None` for a proper list and with `Some(Err(()))` at the
non-pair, non-empty tail of an improper one. -/
theorem lenFuel_succ_pair (h : SchemeHeap) (fuel c : Nat) (cell : Cons)
    (hget : h.consPool.get? c = some cell) :
    lenFuel h (fuel + 1) (Value.pair c)
      = match lenFuel h fuel cell.cdr with
        | some (Except.ok n) => some (Except.ok (n + 1))
        | some (Except.error e) => some (Except.error e)
        | none => none := by
  simp only [lenFuel, hget]

theorem iterRun_succ_pair (h : SchemeHeap) (fuel c : Nat) (cell : Cons)
    (hget : h.consPool.get? c = some cell) :
    iterRun h (fuel + 1) (Value.pair c)
      = match iterRun h fuel cell.cdr with
        | some (es, e) => some (cell.car :: es, e)
        | none => none := by
  simp only [iterRun, hget]

theorem len_and_iterator_spec (h : SchemeHeap) (v : Value) (es : List Value)
    (w : Value) (hch : ChainTo h v es w) :
    lenFuel h (es.length + 1) v
      = some (if w = Value.emptyList then Except.ok es.length
              else Except.error ()) ∧
    iterRun h (es.length + 1) v
      = some (es, if w = Value.emptyList then Except.ok ()
                  else Except.error ()) := by
  induction hch with
  | atom v hnp =>
    cases v with
    | emptyList => simp [lenFuel, iterRun]
    | pair c => exact absurd rfl (hnp c)
    | str s => simp [lenFuel, iterRun]
    | symbol s => simp [lenFuel, iterRun]
    | integer i => simp [lenFuel, iterRun]
    | boolean b => simp [lenFuel, iterRun]
    | character ch => simp [lenFuel, iterRun]
    | procedure p => simp [lenFuel, iterRun]
    | primitive n => simp [lenFuel, iterRun]
  | link c cell es w hget hcdr ih =>
    rcases ih with ⟨ih1, ih2⟩
    have hlen : (cell.car :: es).length = es.length + 1 := rfl
    constructor
    · rw [hlen, lenFuel_succ_pair h (es.length + 1) c cell hget, ih1]
      by_cases hw : w = Value.emptyList <;> simp [hw]
    · rw [hlen, iterRun_succ_pair h (es.length + 1) c cell hget, ih2]

/-- C10 witness: on `listHeap`, the proper list `(1 2)` has length 2 and
iterates to its two elements then `None`; the improper list `(3 . 9)`
has no length and its iteration ends in `Err`. -/
theorem len_and_iterator_spec_witness :
    lenFuel listHeap 3 (Value.pair 0) = some (Except.ok 2) ∧
    iterRun listHeap 3 (Value.pair 0)
      = some ([Value.integer 1, Value.integer 2], Except.ok ()) ∧
    lenFuel listHeap 2 (Value.pair 2) = some (Except.error ()) ∧
    iterRun listHeap 2 (Value.pair 2)
      = some ([Value.integer 3], Except.error ()) := by
  have hch1 : ChainTo listHeap (Value.pair 0)
      [Value.integer 1, Value.integer 2] Value.emptyList := by
    have h2 : ChainTo listHeap Value.emptyList [] Value.emptyList :=
      ChainTo.atom _ (fun c hc => Value.noConfusion hc)
    have h1 : ChainTo listHeap (Value.pair 1) [Value.integer 2] Value.emptyList :=
      ChainTo.link 1 { car := Value.integer 2, cdr := Value.emptyList } [] _ rfl h2
    exact ChainTo.link 0 { car := Value.integer 1, cdr := Value.pair 1 }
      [Value.integer 2] _ rfl h1
  have hch2 : ChainTo listHeap (Value.pair 2) [Value.integer 3]
      (Value.integer 9) := by
    have h2 : ChainTo listHeap (Value.integer 9) [] (Value.integer 9) :=
      ChainTo.atom _ (fun c hc => Value.noConfusion hc)
    exact ChainTo.link 2 { car := Value.integer 3, cdr := Value.integer 9 }
      [] _ rfl h2
  have hp := len_and_iterator_spec listHeap (Value.pair 0)
    [Value.integer 1, Value.integer 2] Value.emptyList hch1
  have hi := len_and_iterator_spec listHeap (Value.pair 2)
    [Value.integer 3] (Value.integer 9) hch2
  refine ⟨?_, ?_, ?_, ?_⟩
  · simpa using hp.1
  · simpa using hp.2
  · simpa using hi.1
  · simpa using hi.2

/-! ## C8: the CLI in batch mode -/

/-- C8 counterexample: a batch run whose (single) file fails evaluates
to exit status 0, not a nonzero code — `main` writes the diagnostic to
standard error and returns without ever setting an exit status. -/
theorem main_batch_error_exits_zero :
    mainBatch [Except.error "boom"] = (0, some "Error: boom") := rfl

/-- CLAIM C8 as amended: in batch mode every file argument's top-level
forms are evaluated in order (a file's value is its last form's; the
first read or evaluation error aborts the file with that error); the
run stops at the first failing file, writing `Error: <message>` to
standard error; and the process exit status is 0 in every case — also
on the error path, since `main` never sets a nonzero exit status. -/
theorem main_batch_amended (outcomes : List (Except String Value)) :
    (mainBatch outcomes).1 = 0 ∧
    ((∀ o ∈ outcomes, ∃ v, o = Except.ok v) → mainBatch outcomes = (0, none)) ∧
    (∀ (pre : List Value) (msg : String) (post : List (Except String Value)),
      outcomes = pre.map Except.ok ++ Except.error msg :: post →
      mainBatch outcomes = (0, some ("Error: " ++ msg))) ∧
    (∀ (evalForm : Value → Except String Value) (forms : List Value)
        (f acc : Value),
      (∀ g ∈ forms, ∃ v, evalForm g = Except.ok v) →
      (∃ v, evalForm f = Except.ok v) →
      evaluateFileModel evalForm ((forms ++ [f]).map Except.ok) acc
        = evalForm f) ∧
    (∀ (evalForm : Value → Except String Value) (pre : List Value)
        (msg : String) (post : List (Except String Value)) (acc : Value),
      (∀ g ∈ pre, ∃ v, evalForm g = Except.ok v) →
      evaluateFileModel evalForm (pre.map Except.ok ++ Except.error msg :: post) acc
        = Except.error msg) := by
  refine ⟨?_, ?_, ?_, ?_, ?_⟩
  · induction outcomes with
    | nil => rfl
    | cons o rest ih =>
      cases o with
      | ok v => simpa [mainBatch] using ih
      | error e => rfl
  · intro hall
    induction outcomes with
    | nil => rfl
    | cons o rest ih =>
      rcases hall o (List.mem_cons_self _ _) with ⟨v, rfl⟩
      simp only [mainBatch]
      exact ih (fun o ho => hall o (List.mem_cons_of_mem _ ho))
  · intro pre msg post heq
    subst heq
    induction pre with
    | nil => rfl
    | cons g rest ih => simpa [mainBatch] using ih
  · intro evalForm forms f acc hall hf
    induction forms generalizing acc with
    | nil =>
      rcases hf with ⟨v, hv⟩
      simp [evaluateFileModel, hv]
    | cons g rest ih =>
      rcases hall g (List.mem_cons_self _ _) with ⟨v, hv⟩
      simp only [List.cons_append, List.map_cons, evaluateFileModel, hv]
      exact ih v (fun g hg => hall g (List.mem_cons_of_mem _ hg))
  · intro evalForm pre msg post acc hall
    induction pre generalizing acc with
    | nil => rfl
    | cons g rest ih =>
      rcases hall g (List.mem_cons_self _ _) with ⟨v, hv⟩
      simp only [List.cons_append, List.map_cons, evaluateFileModel, hv]
      exact ih v (fun g hg => hall g (List.mem_cons_of_mem _ hg))

/-- C8 witness: a successful batch run exits 0 with no diagnostic; a
run whose second file fails exits 0 with `Error: x` on standard error;
a two-form file evaluates to its last form's value. -/
theorem main_batch_amended_witness :
    mainBatch [Except.ok (Value.integer 1)] = (0, none) ∧
    mainBatch [Except.ok (Value.integer 1), Except.error "x"]
      = (0, some "Error: x") ∧
    evaluateFileModel Except.ok
        (([Value.integer 1] ++ [Value.integer 2]).map Except.ok)
        Value.emptyList
      = Except.ok (Value.integer 2) := by
  refine ⟨?_, ?_, ?_⟩
  · exact (main_batch_amended [Except.ok (Value.integer 1)]).2.1
      (fun o ho => ⟨Value.integer 1, List.mem_singleton.mp ho⟩)
  · exact (main_batch_amended _).2.2.1 [Value.integer 1] "x" [] (by simp)
  · exact (main_batch_amended []).2.2.2.1 Except.ok [Value.integer 1]
      (Value.integer 2) Value.emptyList
      (fun g _ => ⟨g, rfl⟩) ⟨Value.integer 2, rfl⟩

/-! ## C1: mark-and-sweep garbage collection -/

/-- The inner mark pass, over an arbitrary starting accumulator: the
marked set grows to cover the pending list and nothing else; every
queued referent is the trace target of something newly marked; every
newly marked thing has all its referents queued. -/
theorem ppfold_spec (h : SchemeHeap) (pending : List GcThing) :
    ∀ (m0 : Finset GcThing) (acc0 : List GcThing),
    m0 ⊆ (pending.foldl (ppStep h) (m0, acc0)).1 ∧
    (∀ t ∈ pending, t ∈ (pending.foldl (ppStep h) (m0, acc0)).1) ∧
    (∀ t ∈ (pending.foldl (ppStep h) (m0, acc0)).1, t ∈ m0 ∨ t ∈ pending) ∧
    (∀ x ∈ (pending.foldl (ppStep h) (m0, acc0)).2, x ∈ acc0 ∨
      ∃ t, t ∈ (pending.foldl (ppStep h) (m0, acc0)).1 ∧ t ∉ m0 ∧
        x ∈ traceThing h t) ∧
    (∀ t ∈ (pending.foldl (ppStep h) (m0, acc0)).1, t ∉ m0 →
      ∀ x ∈ traceThing h t, x ∈ (pending.foldl (ppStep h) (m0, acc0)).2) ∧
    (∀ x ∈ acc0, x ∈ (pending.foldl (ppStep h) (m0, acc0)).2) := by
  induction pending with
  | nil =>
    intro m0 acc0
    refine ⟨Finset.Subset.refl _, ?_, ?_, ?_, ?_, ?_⟩
    · intro t ht; exact absurd ht (List.not_mem_nil t)
    · intro t ht; exact Or.inl ht
    · intro x hx; exact Or.inl hx
    · intro t ht htm; exact absurd ht htm
    · intro x hx; exact hx
  | cons t0 rest ih =>
    intro m0 acc0
    by_cases ht0 : t0 ∈ m0
    · have hstep : ppStep h (m0, acc0) t0 = (m0, acc0) := by
        simp [ppStep, ht0]
      have hfold : (t0 :: rest).foldl (ppStep h) (m0, acc0)
          = rest.foldl (ppStep h) (m0, acc0) := by
        simp only [List.foldl_cons, hstep]
      rcases ih m0 acc0 with ⟨iha, ihb, ihc, ihd, ihe, ihf⟩
      rw [hfold]
      refine ⟨iha, ?_, ?_, ihd, ihe, ihf⟩
      · intro t ht
        rcases List.mem_cons.mp ht with rfl | ht
        · exact iha ht0
        · exact ihb t ht
      · intro t ht
        rcases ihc t ht with htm | htr
        · exact Or.inl htm
        · exact Or.inr (List.mem_cons_of_mem _ htr)
    · have hstep : ppStep h (m0, acc0) t0
          = (insert t0 m0, acc0 ++ traceThing h t0) := by
        simp [ppStep, ht0]
      have hfold : (t0 :: rest).foldl (ppStep h) (m0, acc0)
          = rest.foldl (ppStep h) (insert t0 m0, acc0 ++ traceThing h t0) := by
        simp only [List.foldl_cons, hstep]
      rcases ih (insert t0 m0) (acc0 ++ traceThing h t0)
        with ⟨iha, ihb, ihc, ihd, ihe, ihf⟩
      rw [hfold]
      have ht0in : t0 ∈ (rest.foldl (ppStep h)
          (insert t0 m0, acc0 ++ traceThing h t0)).1 :=
        iha (Finset.mem_insert_self _ _)
      refine ⟨?_, ?_, ?_, ?_, ?_, ?_⟩
      · intro x hx
        exact iha (Finset.mem_insert_of_mem hx)
      · intro t ht
        rcases List.mem_cons.mp ht with rfl | ht
        · exact ht0in
        · exact ihb t ht
      · intro t ht
        rcases ihc t ht with htm | htr
        · rcases Finset.mem_insert.mp htm with rfl | htm
          · exact Or.inr (List.mem_cons_self _ _)
          · exact Or.inl htm
        · exact Or.inr (List.mem_cons_of_mem _ htr)
      · intro x hx
        rcases ihd x hx with hxa | ⟨t, htf, htm, hxt⟩
        · rcases List.mem_append.mp hxa with hxa | hxt
          · exact Or.inl hxa
          · exact Or.inr ⟨t0, ht0in, ht0, hxt⟩
        · exact Or.inr ⟨t, htf, fun hc => htm (Finset.mem_insert_of_mem hc), hxt⟩
      · intro t ht htm
        by_cases htt0 : t = t0
        · subst htt0
          intro x hx
          exact ihf x (List.mem_append.mpr (Or.inr hx))
        · exact ihe t ht (fun hc => by
            rcases Finset.mem_insert.mp hc with hc | hc
            · exact htt0 hc
            · exact htm hc)
      · intro x hx
        exact ihf x (List.mem_append.mpr (Or.inl hx))

theorem mem_traceFold (h : SchemeHeap) (L : List GcThing) (x : GcThing) :
    x ∈ L.foldr (fun t acc => (traceThing h t).toFinset ∪ acc) ∅ ↔
      ∃ t ∈ L, x ∈ traceThing h t := by
  induction L with
  | nil => simp
  | cons t rest ih =>
    simp only [List.foldr_cons, Finset.mem_union, List.mem_toFinset, ih]
    constructor
    · intro hx
      rcases hx with hx | ⟨t1, ht1, hx⟩
      · exact ⟨t, List.mem_cons_self _ _, hx⟩
      · exact ⟨t1, List.mem_cons_of_mem _ ht1, hx⟩
    · intro ⟨t1, ht1, hx⟩
      rcases List.mem_cons.mp ht1 with rfl | ht1
      · exact Or.inl hx
      · exact Or.inr ⟨t1, ht1, hx⟩

/-- Every trace target lies in the GC universe. -/
theorem traceThing_mem_universe (h : SchemeHeap) (t x : GcThing)
    (hx : x ∈ traceThing h t) : x ∈ gcUniverse h := by
  have hpool : t ∈ allPoolThings h := by
    cases t with
    | cons i =>
      cases hgt : h.consPool.get? i with
      | none =>
        rw [List.get?_eq_getElem?] at hgt
        simp [traceThing, hgt] at hx
      | some cell =>
        have hlt : i < h.consPool.length := by
          by_contra hge
          rw [List.get?_eq_none.mpr (by omega)] at hgt
          exact Option.noConfusion hgt
        exact List.mem_append.mpr (Or.inl (List.mem_append.mpr (Or.inl
          (List.mem_map.mpr ⟨i, List.mem_range.mpr hlt, rfl⟩))))
    | string i => simp [traceThing] at hx
    | activation i =>
      cases hgt : h.actPool.get? i with
      | none =>
        rw [List.get?_eq_getElem?] at hgt
        simp [traceThing, hgt] at hx
      | some ad =>
        have hlt : i < h.actPool.length := by
          by_contra hge
          rw [List.get?_eq_none.mpr (by omega)] at hgt
          exact Option.noConfusion hgt
        exact List.mem_append.mpr (Or.inl (List.mem_append.mpr (Or.inr
          (List.mem_map.mpr ⟨i, List.mem_range.mpr hlt, rfl⟩))))
    | procedure i =>
      cases hgt : h.procPool.get? i with
      | none =>
        rw [List.get?_eq_getElem?] at hgt
        simp [traceThing, hgt] at hx
      | some pd =>
        have hlt : i < h.procPool.length := by
          by_contra hge
          rw [List.get?_eq_none.mpr (by omega)] at hgt
          exact Option.noConfusion hgt
        exact List.mem_append.mpr (Or.inr
          (List.mem_map.mpr ⟨i, List.mem_range.mpr hlt, rfl⟩))
  exact Finset.mem_union_right _ ((mem_traceFold h _ x).mpr ⟨t, hpool, hx⟩)

theorem roots_mem_universe (h : SchemeHeap) (t : GcThing)
    (ht : t ∈ getRoots h) : t ∈ gcUniverse h :=
  Finset.mem_union_left _ (List.mem_toFinset.mpr ht)

theorem markLoop_nil (h : SchemeHeap) (fuel : Nat) (m : Finset GcThing) :
    markLoop h fuel m [] = m := by
  cases fuel <;> simp [markLoop]

/-- The mark loop, given enough fuel, yields a superset of the seed that
is closed under tracing. -/
theorem markLoop_reaches_closure (h : SchemeHeap) :
    ∀ (fuel : Nat) (m : Finset GcThing) (p : List GcThing),
      (∀ t ∈ m, ∀ r ∈ traceThing h t, r ∈ m ∨ r ∈ p) →
      m ⊆ gcUniverse h →
      (∀ x ∈ p, x ∈ gcUniverse h) →
      (gcUniverse h).card - m.card + 2 ≤ fuel →
      m ⊆ markLoop h fuel m p ∧
      (∀ t ∈ p, t ∈ markLoop h fuel m p) ∧
      (∀ t ∈ markLoop h fuel m p, ∀ r ∈ traceThing h t,
        r ∈ markLoop h fuel m p) := by
  intro fuel
  induction fuel with
  | zero =>
    intro m p hinv hmU hpU hf
    omega
  | succ fuel ih =>
    intro m p hinv hmU hpU hf
    by_cases hpE : p.isEmpty
    · have hp0 : p = [] := by simpa [List.isEmpty_iff] using hpE
      subst hp0
      have hres : markLoop h (fuel + 1) m [] = m := markLoop_nil h _ m
      rw [hres]
      refine ⟨Finset.Subset.refl _, ?_, ?_⟩
      · intro t ht; exact absurd ht (List.not_mem_nil t)
      · intro t ht r hr
        rcases hinv t ht r hr with hrm | hrp
        · exact hrm
        · exact absurd hrp (List.not_mem_nil r)
    · have hres : markLoop h (fuel + 1) m p
          = markLoop h fuel (processPending h m p).1 (processPending h m p).2 := by
        simp [markLoop, hpE]
      rcases ppfold_spec h p m [] with ⟨ppa, ppb, ppc, ppd, ppe, _⟩
      have hppe : List.foldl (ppStep h) (m, []) p = processPending h m p := rfl
      rw [hppe] at ppa ppb ppc ppd ppe
      by_cases hnew : ∃ t ∈ p, t ∉ m
      · rcases hnew with ⟨tn, htnp, htnm⟩
        have hmsub : m ⊆ (processPending h m p).1 := ppa
        have hmne : m ≠ (processPending h m p).1 := by
          intro hc
          exact htnm (hc ▸ ppb tn htnp)
        have hcard : m.card < (processPending h m p).1.card :=
          Finset.card_lt_card (Finset.ssubset_iff_subset_ne.mpr ⟨hmsub, hmne⟩)
        have hm'U : (processPending h m p).1 ⊆ gcUniverse h := by
          intro t ht
          rcases ppc t ht with htm | htp
          · exact hmU htm
          · exact hpU t htp
        have hp'U : ∀ x ∈ (processPending h m p).2, x ∈ gcUniverse h := by
          intro x hx
          rcases ppd x hx with hxa | ⟨t, _, _, hxt⟩
          · exact absurd hxa (List.not_mem_nil x)
          · exact traceThing_mem_universe h t x hxt
        have hinv' : ∀ t ∈ (processPending h m p).1,
            ∀ r ∈ traceThing h t,
              r ∈ (processPending h m p).1 ∨ r ∈ (processPending h m p).2 := by
          intro t ht r hr
          by_cases htm : t ∈ m
          · rcases hinv t htm r hr with hrm | hrp
            · exact Or.inl (ppa hrm)
            · exact Or.inl (ppb r hrp)
          · exact Or.inr (ppe t ht htm r hr)
        have hcard' : (processPending h m p).1.card ≤ (gcUniverse h).card :=
          Finset.card_le_card hm'U
        have hf' : (gcUniverse h).card - (processPending h m p).1.card + 2
            ≤ fuel := by omega
        rcases ih (processPending h m p).1 (processPending h m p).2
          hinv' hm'U hp'U hf' with ⟨ra, rb, rc⟩
        rw [hres]
        refine ⟨fun x hx => ra (ppa hx), ?_, rc⟩
        intro t ht
        exact ra (ppb t ht)
      · push_neg at hnew
        have hm' : (processPending h m p).1 = m := by
          apply Finset.Subset.antisymm
          · intro t ht
            rcases ppc t ht with htm | htp
            · exact htm
            · exact hnew t htp
          · exact ppa
        have hp' : (processPending h m p).2 = [] := by
          rw [List.eq_nil_iff_forall_not_mem]
          intro x hx
          rcases ppd x hx with hxa | ⟨t, htf, htm, _⟩
          · exact List.not_mem_nil x hxa
          · rw [hm'] at htf
            exact htm htf
        rw [hres, hm', hp', markLoop_nil]
        refine ⟨Finset.Subset.refl _, hnew, ?_⟩
        intro t ht r hr
        rcases hinv t ht r hr with hrm | hrp
        · exact hrm
        · exact hnew r hrp

/-- The marked set of `collect_garbage` contains every root and is
closed under tracing. -/
theorem gcMark_spec (h : SchemeHeap) :
    (∀ t ∈ getRoots h, t ∈ gcMark h) ∧
    (∀ t ∈ gcMark h, ∀ r ∈ traceThing h t, r ∈ gcMark h) := by
  have hml := markLoop_reaches_closure h (gcFuel h) ∅ (getRoots h)
    (fun t ht => absurd ht (Finset.not_mem_empty t))
    (Finset.empty_subset _)
    (fun x hx => roots_mem_universe h x hx)
    (by simp [gcFuel])
  exact ⟨hml.2.1, hml.2.2⟩

theorem reachable_mem_gcMark (h : SchemeHeap) (x : GcThing)
    (hx : Reachable h x) : x ∈ gcMark h := by
  induction hx with
  | root t ht => exact (gcMark_spec h).1 t ht
  | step t r _ hr ih => exact (gcMark_spec h).2 t ih r hr

/-- CLAIM C1: after `collect_garbage`, every GC thing reachable from a
root at the start of collection is in the marked set at the end of the
mark phase and is preserved in its arena by the sweep; and each arena's
free list is exactly `{0..capacity}` minus that arena's marked (live)
indices. -/
theorem collect_garbage_spec (h : SchemeHeap) :
    (∀ x, Reachable h x → x ∈ gcMark h ∧ preservedBySweep (collectGarbage h) x) ∧
    (∀ n,
      (n ∈ (collectGarbage h).consFree ↔
        n < h.consPool.length ∧ GcThing.cons n ∉ gcMark h) ∧
      (n ∈ (collectGarbage h).stringFree ↔
        n < h.stringPool.length ∧ GcThing.string n ∉ gcMark h) ∧
      (n ∈ (collectGarbage h).actFree ↔
        n < h.actPool.length ∧ GcThing.activation n ∉ gcMark h) ∧
      (n ∈ (collectGarbage h).procFree ↔
        n < h.procPool.length ∧ GcThing.procedure n ∉ gcMark h)) := by
  have hfree : ∀ n,
      (n ∈ (collectGarbage h).consFree ↔
        n < h.consPool.length ∧ GcThing.cons n ∉ gcMark h) ∧
      (n ∈ (collectGarbage h).stringFree ↔
        n < h.stringPool.length ∧ GcThing.string n ∉ gcMark h) ∧
      (n ∈ (collectGarbage h).actFree ↔
        n < h.actPool.length ∧ GcThing.activation n ∉ gcMark h) ∧
      (n ∈ (collectGarbage h).procFree ↔
        n < h.procPool.length ∧ GcThing.procedure n ∉ gcMark h) := by
    intro n
    refine ⟨?_, ?_, ?_, ?_⟩ <;>
      simp [collectGarbage, List.mem_filter, List.mem_range]
  refine ⟨?_, hfree⟩
  intro x hx
  have hmark := reachable_mem_gcMark h x hx
  refine ⟨hmark, ?_⟩
  cases x with
  | cons i =>
    intro hc
    exact (((hfree i).1.mp hc).2) hmark
  | string i =>
    intro hc
    exact (((hfree i).2.1.mp hc).2) hmark
  | activation i =>
    intro hc
    exact (((hfree i).2.2.1.mp hc).2) hmark
  | procedure i =>
    intro hc
    exact (((hfree i).2.2.2.mp hc).2) hmark

/-- C1 witness: on `listHeap`, the global activation is a root, hence
marked and preserved; and slot 0 of the string arena (empty, so no
slot) plus the free-list characterization at index 0 of the cons
arena. -/
theorem collect_garbage_spec_witness :
    GcThing.activation 0 ∈ gcMark listHeap ∧
    preservedBySweep (collectGarbage listHeap) (GcThing.activation 0) ∧
    (0 ∈ (collectGarbage listHeap).consFree ↔
      0 < listHeap.consPool.length ∧ GcThing.cons 0 ∉ gcMark listHeap) := by
  have hreach : Reachable listHeap (GcThing.activation 0) :=
    Reachable.root _ (by simp [getRoots, listHeap])
  have h := collect_garbage_spec listHeap
  exact ⟨(h.1 _ hreach).1, (h.1 _ hreach).2, (h.2 0).1⟩

/-! ## C7: printing cyclic values -/

/-- CLAIM C7 (code bug): on the self-referential pair of `cyclicHeap`,
the `print.rs` printer never finishes for any recursion bound — it has
no seen-set and recurses into the cdr forever — while the `value.rs`
`Display` printer (the one the `print` primitive and the
`test_print_cycle` test use) terminates and prints the already-visited
pair as `<cyclic value>`, as the claim states. -/
theorem print_cycle_divergence :
    (∀ fuel, printPairNS cyclicHeap fuel 0 = none) ∧
    printValueV cyclicHeap 4 ∅ (Value.pair 0)
      = some ("(1 . <cyclic value>)", {0}) := by
  constructor
  · intro fuel
    induction fuel with
    | zero => rfl
    | succ f ih =>
      cases f with
      | zero => rfl
      | succ f2 =>
        simp only [printPairNS, printValueNS, cyclicHeap, List.get?] at ih ⊢
        rw [ih]
  · rfl

end Oxischeme
